import Mathlib

/-! Shallow embedding of the financial calculation core of `src/app.py`:
key normalization, volume aggregation, the price and trade-spend left-joins
with zero-fill, the P&L waterfall, the dashboard ratios, the PVM bridge and
the ledger explosion.  Numeric dataframe cells are modelled as exact
rationals, nullable cells as `Option ℚ`; the division the weights tab
performs without a guard is modelled with IEEE-style special values. -/

unseal Rat.add Rat.mul Rat.sub Rat.inv

/-- Python `str.strip()` on a list of characters: drop whitespace at both ends. -/
def stripEnds (cs : List Char) : List Char :=
  ((cs.dropWhile Char.isWhitespace).reverse.dropWhile Char.isWhitespace).reverse

/-- Pandas `.str.split('.').str[0]`: the characters before the first dot
(the whole string when it has no dot). -/
def headSplitDot (cs : List Char) : List Char :=
  cs.takeWhile (fun c => decide (c ≠ '.'))

/-- Key normalization of app.py lines 48-49:
`df[EAN].astype(str).str.strip().str.split('.').str[0]`. -/
def normKey (s : String) : String :=
  String.mk (headSplitDot (stripEnds s.data))

/-- Whether a character list ends in the two characters of a ".0" suffix. -/
def endsDotZero (cs : List Char) : Bool :=
  match cs.reverse with
  | '0' :: '.' :: _ => true
  | _ => false

/-- The key normalization as the specification words it: trim surrounding
whitespace, then remove a trailing literal ".0" suffix, and nothing else.
Kept only to compare against `normKey`, the normalization the code performs. -/
def claimNormKey (s : String) : String :=
  let t := stripEnds s.data
  String.mk (if endsDotZero t then (t.reverse.drop 2).reverse else t)

/-- A raw volume row (one CSV line of the volume table), units already
parsed to a rational. -/
structure VolumeRow where
  year : Int
  channel : String
  category : String
  customer : String
  eanRaw : String
  units : ℚ
deriving DecidableEq

/-- A price/cost row; `gtgPct` is the fraction obtained after the `/ 100`
percent parsing of app.py line 54. -/
structure PriceRow where
  year : Int
  channel : String
  eanRaw : String
  listPrice : ℚ
  stdCost : ℚ
  gtgPct : ℚ
deriving DecidableEq

/-- A trade-spend rule; `pct` is the fraction obtained after the `/ 100`
percent parsing of app.py line 55. -/
structure TradeRow where
  year : Int
  channel : String
  category : String
  typ : String
  accountCode : String
  accountName : String
  pct : ℚ
deriving DecidableEq

/-- The five-column groupby key of app.py line 58. -/
structure AggKey where
  year : Int
  channel : String
  category : String
  customer : String
  ean : String
deriving DecidableEq

def volKey (r : VolumeRow) : AggKey :=
  ⟨r.year, r.channel, r.category, r.customer, normKey r.eanRaw⟩

/-- One aggregated volume row. -/
structure AggRow where
  key : AggKey
  units : ℚ
deriving DecidableEq

/-- app.py line 58: group by (Year, Channel, Category, Customer Name,
EAN_Key) and sum Units — one output row per distinct key. -/
def aggregateVolume (vol : List VolumeRow) : List AggRow :=
  ((vol.map volKey).dedup).map fun k =>
    ⟨k, ((vol.filter fun r => decide (volKey r = k)).map fun r => r.units).sum⟩

/-- Nullable-cell row after the first merge (volume left-joined against the
price table), before the `fillna(0)`. -/
structure Merged1 where
  year : Int
  channel : String
  category : String
  customer : String
  ean : String
  units : Option ℚ
  listPrice : Option ℚ
  stdCost : Option ℚ
  gtgPct : Option ℚ
deriving DecidableEq

/-- The join condition of the first merge: on (Year, Channel, EAN_Key). -/
def priceMatch (a : AggKey) (p : PriceRow) : Prop :=
  p.year = a.year ∧ p.channel = a.channel ∧ normKey p.eanRaw = a.ean

instance (a : AggKey) (p : PriceRow) : Decidable (priceMatch a p) :=
  inferInstanceAs (Decidable (_ ∧ _ ∧ _))

/-- One aggregated row left-joined against the price table (app.py lines
61-62, before the fillna): an unmatched row keeps null price fields; a
matched row yields one output row per matching price row. -/
def joinPriceRow (a : AggRow) (pri : List PriceRow) : List Merged1 :=
  match pri.filter (fun p => decide (priceMatch a.key p)) with
  | [] => [⟨a.key.year, a.key.channel, a.key.category, a.key.customer, a.key.ean,
            some a.units, none, none, none⟩]
  | ps => ps.map fun p =>
      ⟨a.key.year, a.key.channel, a.key.category, a.key.customer, a.key.ean,
       some a.units, some p.listPrice, some p.stdCost, some p.gtgPct⟩

/-- `fillna(0)` on one nullable cell: a null becomes 0, a value is kept. -/
def fillCell (o : Option ℚ) : Option ℚ := some (o.getD 0)

/-- The `.fillna(0)` of app.py line 62, applied to the whole merged frame:
every nullable column, the carried-over Units included, is filled. -/
def fillna1 (m : Merged1) : Merged1 :=
  { m with units := fillCell m.units, listPrice := fillCell m.listPrice,
           stdCost := fillCell m.stdCost, gtgPct := fillCell m.gtgPct }

/-- The join condition of the second merge and of the ledger's rule lookup:
on (Year, Channel, Category). -/
def tradeMatch (y : Int) (ch cat : String) (t : TradeRow) : Prop :=
  t.year = y ∧ t.channel = ch ∧ t.category = cat

instance (y : Int) (ch cat : String) (t : TradeRow) : Decidable (tradeMatch y ch cat t) :=
  inferInstanceAs (Decidable (_ ∧ _ ∧ _))

/-- app.py lines 64-66: the trade-spend pivot value for one key — present
(as the sum of the matching rules' percentages) exactly when at least one
rule carries the key, null (before the fillna) otherwise. -/
def tsPolicyPct (tra : List TradeRow) (y : Int) (ch cat : String) : Option ℚ :=
  match tra.filter (fun t => decide (tradeMatch y ch cat t)) with
  | [] => none
  | ts => some ((ts.map fun t => t.pct).sum)

/-- Nullable-cell row after the second merge, before its `fillna(0)`. -/
structure Merged2 where
  year : Int
  channel : String
  category : String
  customer : String
  ean : String
  units : Option ℚ
  listPrice : Option ℚ
  stdCost : Option ℚ
  gtgPct : Option ℚ
  tsPct : Option ℚ
deriving DecidableEq

def addTrade (tra : List TradeRow) (m : Merged1) : Merged2 :=
  ⟨m.year, m.channel, m.category, m.customer, m.ean,
   m.units, m.listPrice, m.stdCost, m.gtgPct,
   tsPolicyPct tra m.year m.channel m.category⟩

/-- The `.fillna(0)` of app.py line 66, again over the whole frame. -/
def fillna2 (m : Merged2) : Merged2 :=
  { m with units := fillCell m.units, listPrice := fillCell m.listPrice,
           stdCost := fillCell m.stdCost, gtgPct := fillCell m.gtgPct,
           tsPct := fillCell m.tsPct }

/-- The master table after the first merge and fill (app.py lines 61-62). -/
def masterMerged1 (vol : List VolumeRow) (pri : List PriceRow) : List Merged1 :=
  ((aggregateVolume vol).flatMap fun a => joinPriceRow a pri).map fillna1

/-- The master table after both merges and fills (app.py lines 61-66),
the table handed to the waterfall calculation. -/
def masterMerged2 (vol : List VolumeRow) (pri : List PriceRow) (tra : List TradeRow) :
    List Merged2 :=
  (masterMerged1 vol pri).map fun m => fillna2 (addTrade tra m)

/-- A fully derived master row: dimensions, joined inputs, and every
waterfall field of app.py lines 69-75. -/
structure MasterRow where
  year : Int
  channel : String
  category : String
  customer : String
  ean : String
  units : ℚ
  listPrice : ℚ
  stdCost : ℚ
  gtgPct : ℚ
  tsPct : ℚ
  grossSales : ℚ
  offInvoice : ℚ
  gts : ℚ
  tradeSpendValue : ℚ
  netTotalSales : ℚ
  cogs : ℚ
  grossProfit : ℚ
deriving DecidableEq

/-- app.py lines 69-75, the waterfall derivation (`getD 0` reads the plain
value out of a filled cell). -/
def waterfall (m : Merged2) : MasterRow :=
  let units := m.units.getD 0
  let lp := m.listPrice.getD 0
  let sc := m.stdCost.getD 0
  let gtg := m.gtgPct.getD 0
  let ts := m.tsPct.getD 0
  let gs := units * lp
  let oi := gs * gtg
  let gts := gs - oi
  let tsv := gs * ts
  let nts := gts - tsv
  let cogs := units * sc
  ⟨m.year, m.channel, m.category, m.customer, m.ean,
   units, lp, sc, gtg, ts, gs, oi, gts, tsv, nts, cogs, nts - cogs⟩

/-- The full engine of app.py lines 41-77 (post-parse): normalize, aggregate,
join, zero-fill, derive the waterfall. -/
def masterRows (vol : List VolumeRow) (pri : List PriceRow) (tra : List TradeRow) :
    List MasterRow :=
  (masterMerged2 vol pri tra).map waterfall

def ntsSum (rows : List MasterRow) : ℚ := (rows.map fun r => r.netTotalSales).sum

def gpSum (rows : List MasterRow) : ℚ := (rows.map fun r => r.grossProfit).sum

def unitsSum (rows : List MasterRow) : ℚ := (rows.map fun r => r.units).sum

/-- app.py lines 112-114: GP margin, with its explicit division guard. -/
def gpMargin (rows : List MasterRow) : ℚ :=
  if ntsSum rows ≠ 0 then gpSum rows / ntsSum rows * 100 else 0

def catFilter (rows : List MasterRow) (cat : String) : List MasterRow :=
  rows.filter fun r => decide (r.category = cat)

def catUnitsSum (rows : List MasterRow) (cat : String) : ℚ := unitsSum (catFilter rows cat)

def catNtsSum (rows : List MasterRow) (cat : String) : ℚ := ntsSum (catFilter rows cat)

/-- An IEEE-754-like scalar as pandas produces it: finite, infinite or NaN. -/
inductive PandasVal where
  | finite (q : ℚ)
  | posInf
  | negInf
  | nan
deriving DecidableEq

/-- Float division as pandas performs it on exact operands: finite quotient
for a non-zero denominator, signed infinity or NaN for a zero one (pandas
does not raise on division by zero). -/
def pandasDiv (n d : ℚ) : PandasVal :=
  if d ≠ 0 then .finite (n / d)
  else if 0 < n then .posInf
  else if n < 0 then .negInf
  else .nan

def PandasVal.isFinite : PandasVal → Bool
  | .finite _ => true
  | _ => false

/-- app.py line 142: `weights['Units'] / weights['Units'].sum()` for one
category — an unguarded division. -/
def volumeShare (rows : List MasterRow) (cat : String) : PandasVal :=
  pandasDiv (catUnitsSum rows cat) (unitsSum rows)

/-- app.py line 143: `weights['Net_Total_Sales'] / weights['Net_Total_Sales'].sum()`
for one category — an unguarded division. -/
def ntsShare (rows : List MasterRow) (cat : String) : PandasVal :=
  pandasDiv (catNtsSum rows cat) (ntsSum rows)

/-- One row of the PVM bridge output. -/
structure PvmResult where
  category : String
  priceEffect : ℚ
  volumeEffect : ℚ
  mixEffect : ℚ
  totalDelta : ℚ
deriving DecidableEq

/-- app.py lines 160-177: the PVM decomposition for one category, over a
previous-period row-set and a current row-set. -/
def pvmFor (prev cur : List MasterRow) (cat : String) : PvmResult :=
  let v1 := catUnitsSum prev cat
  let v2 := catUnitsSum cur cat
  let tv1 := unitsSum prev
  let tv2 := unitsSum cur
  let p1 := if 0 < v1 then catNtsSum prev cat / v1 else 0
  let p2 := if 0 < v2 then catNtsSum cur cat / v2 else 0
  let mix1 := if 0 < tv1 then v1 / tv1 else 0
  let mix2 := if 0 < tv2 then v2 / tv2 else 0
  ⟨cat, v2 * (p2 - p1), (tv2 - tv1) * mix1 * p1, tv2 * (mix2 - mix1) * p1,
   v2 * p2 - v1 * p1⟩

/-- One exploded accounting line of the raw-data tab. -/
structure LedgerLine where
  year : Int
  channel : String
  customer : String
  category : String
  ean : String
  accountCode : String
  accountName : String
  value : ℚ
deriving DecidableEq

/-- The rule lookup of app.py lines 251-255: rules whose (Year, Channel,
Category) equal the master row's. -/
def ruleMatches (row : MasterRow) (t : TradeRow) : Prop :=
  tradeMatch row.year row.channel row.category t

instance (row : MasterRow) (t : TradeRow) : Decidable (ruleMatches row t) :=
  inferInstanceAs (Decidable (tradeMatch _ _ _ _))

def gsLine (row : MasterRow) : LedgerLine :=
  ⟨row.year, row.channel, row.customer, row.category, row.ean,
   "GS-001", "Gross Sales", |row.grossSales|⟩

def oiLine (row : MasterRow) : LedgerLine :=
  ⟨row.year, row.channel, row.customer, row.category, row.ean,
   "OI-001", "Off-Invoice", |row.offInvoice|⟩

def tradeLine (row : MasterRow) (t : TradeRow) : LedgerLine :=
  ⟨row.year, row.channel, row.customer, row.category, row.ean,
   t.accountCode, t.accountName, |row.grossSales * t.pct|⟩

def cogsLine (row : MasterRow) : LedgerLine :=
  ⟨row.year, row.channel, row.customer, row.category, row.ean,
   "CS-001", "COGS", |row.cogs|⟩

/-- app.py lines 230-269, the ledger explosion for one master row: the
sequential appends of the iteration — Gross Sales unconditionally, then
Off-Invoice, one line per matching trade rule, and COGS, each only when its
magnitude is non-zero, every value taken in absolute value. -/
def ledgerLinesRow (row : MasterRow) (rules : List TradeRow) : List LedgerLine :=
  let l1 := [gsLine row]
  let l2 := if row.offInvoice ≠ 0 then l1 ++ [oiLine row] else l1
  let l3 := (rules.filter fun t => decide (ruleMatches row t)).foldl
      (fun acc t => if row.grossSales * t.pct ≠ 0 then acc ++ [tradeLine row t] else acc) l2
  if row.cogs ≠ 0 then l3 ++ [cogsLine row] else l3

/-- The concrete end-to-end volume row of the specification's scenario. -/
def vRow0 : VolumeRow := ⟨2024, "Retail", "Snacks", "X", "100.0", 10⟩

/-- The concrete end-to-end price row of the specification's scenario. -/
def pRow0 : PriceRow := ⟨2024, "Retail", "100", 2, 1, 1/20⟩

/-- The concrete end-to-end trade-spend rule of the specification's scenario. -/
def tRow0 : TradeRow := ⟨2024, "Retail", "Snacks", "Agreement", "TS-100", "Agreement Fund", 1/10⟩

/-- The master row the scenario expects. -/
def master0 : MasterRow :=
  ⟨2024, "Retail", "Snacks", "X", "100", 10, 2, 1, 1/20, 1/10, 20, 1, 19, 2, 17, 10, 7⟩

/-- A master row carrying only the fields the PVM bridge and the weights tab
read: Category, Units and Net_Total_Sales. -/
def mkPvmRow (cat : String) (u n : ℚ) : MasterRow :=
  ⟨0, "", cat, "", "", u, 0, 0, 0, 0, 0, 0, 0, 0, n, 0, 0⟩

/-! ### Helper lemmas -/

lemma sum_map_nonneg {α : Type} (l : List α) (f : α → ℚ) (h : ∀ a ∈ l, 0 ≤ f a) :
    0 ≤ (l.map f).sum := by
  refine List.sum_nonneg fun x hx => ?_
  obtain ⟨a, ha, rfl⟩ := List.mem_map.mp hx
  exact h a ha

lemma sum_map_filter_le {α : Type} (l : List α) (p : α → Bool) (f : α → ℚ)
    (h : ∀ a ∈ l, 0 ≤ f a) : ((l.filter p).map f).sum ≤ (l.map f).sum := by
  induction l with
  | nil => simp
  | cons a l ih =>
    have hal : ∀ x ∈ l, 0 ≤ f x := fun x hx => h x (List.mem_cons_of_mem _ hx)
    by_cases hpa : p a
    · simp only [List.filter_cons, hpa, if_true, List.map_cons, List.sum_cons]
      exact add_le_add_left (ih hal) _
    · simp only [List.filter_cons, hpa, Bool.false_eq_true, if_false, List.map_cons,
        List.sum_cons]
      exact le_trans (ih hal) (le_add_of_nonneg_left (h a (List.mem_cons_self _ _)))

lemma sum_map_mul_left_q {α : Type} (l : List α) (f : α → ℚ) (c : ℚ) :
    (l.map fun x => c * f x).sum = c * (l.map f).sum := by
  induction l with
  | nil => simp
  | cons a l ih => simp [ih, mul_add]

lemma unitsSum_nonneg (rows : List MasterRow) (h : ∀ r ∈ rows, 0 ≤ r.units) :
    0 ≤ unitsSum rows := sum_map_nonneg rows (fun r => r.units) h

lemma catUnitsSum_nonneg (rows : List MasterRow) (cat : String)
    (h : ∀ r ∈ rows, 0 ≤ r.units) : 0 ≤ catUnitsSum rows cat :=
  unitsSum_nonneg _ fun r hr => h r (List.mem_of_mem_filter hr)

lemma catUnitsSum_le (rows : List MasterRow) (cat : String)
    (h : ∀ r ∈ rows, 0 ≤ r.units) : catUnitsSum rows cat ≤ unitsSum rows :=
  sum_map_filter_le rows _ (fun r => r.units) h

/-- The guarded-ratio algebra behind the PVM bridge: the three effects add up
to the total delta as soon as each per-category unit sum is non-negative and
bounded by its all-category total. -/
lemma pvm_algebra (v1 v2 V1 V2 n1 n2 : ℚ) (hv1 : 0 ≤ v1) (hv2 : 0 ≤ v2)
    (h1 : v1 ≤ V1) (h2 : v2 ≤ V2) :
    v2 * ((if 0 < v2 then n2 / v2 else 0) - (if 0 < v1 then n1 / v1 else 0)) +
      (V2 - V1) * (if 0 < V1 then v1 / V1 else 0) * (if 0 < v1 then n1 / v1 else 0) +
      V2 * ((if 0 < V2 then v2 / V2 else 0) - (if 0 < V1 then v1 / V1 else 0)) *
        (if 0 < v1 then n1 / v1 else 0) =
    v2 * (if 0 < v2 then n2 / v2 else 0) - v1 * (if 0 < v1 then n1 / v1 else 0) := by
  generalize (if 0 < v2 then n2 / v2 else 0) = p2
  by_cases hp1 : 0 < v1
  · have hV1 : 0 < V1 := lt_of_lt_of_le hp1 h1
    rw [if_pos hp1, if_pos hV1]
    by_cases hV2 : 0 < V2
    · rw [if_pos hV2]
      have hV1ne : V1 ≠ 0 := ne_of_gt hV1
      have hV2ne : V2 ≠ 0 := ne_of_gt hV2
      have hv1ne : v1 ≠ 0 := ne_of_gt hp1
      field_simp
      ring
    · have hV2le : V2 ≤ 0 := le_of_not_lt hV2
      have hv2z : v2 = 0 := le_antisymm (le_trans h2 hV2le) hv2
      have hV2z : V2 = 0 := le_antisymm hV2le (le_trans hv2 h2)
      rw [if_neg hV2, hv2z, hV2z]
      have hV1ne : V1 ≠ 0 := ne_of_gt hV1
      have hv1ne : v1 ≠ 0 := ne_of_gt hp1
      field_simp
      ring
  · have hv1z : v1 = 0 := le_antisymm (le_of_not_lt hp1) hv1
    rw [if_neg hp1, hv1z]
    ring

/-- Unfolds a master-row membership into its aggregation/join provenance. -/
lemma mem_masterRows_decomp (vol : List VolumeRow) (pri : List PriceRow)
    (tra : List TradeRow) (r : MasterRow) (hr : r ∈ masterRows vol pri tra) :
    ∃ a ∈ aggregateVolume vol, ∃ m ∈ joinPriceRow a pri,
      r = waterfall (fillna2 (addTrade tra (fillna1 m))) := by
  rw [masterRows, masterMerged2, masterMerged1] at hr
  obtain ⟨m2, hm2, rfl⟩ := List.mem_map.mp hr
  obtain ⟨m1f, hm1f, rfl⟩ := List.mem_map.mp hm2
  obtain ⟨m0, hm0, rfl⟩ := List.mem_map.mp hm1f
  obtain ⟨a, ha, hj⟩ := List.mem_flatMap.mp hm0
  exact ⟨a, ha, m0, hj, rfl⟩

/-- The dimension columns and the Units cell of a first-join output row come
from the aggregated volume row. -/
lemma joinPriceRow_dims (a : AggRow) (pri : List PriceRow) (m : Merged1)
    (hm : m ∈ joinPriceRow a pri) :
    m.year = a.key.year ∧ m.channel = a.key.channel ∧ m.category = a.key.category ∧
      m.customer = a.key.customer ∧ m.ean = a.key.ean ∧ m.units = some a.units := by
  unfold joinPriceRow at hm
  cases hf : pri.filter (fun p => decide (priceMatch a.key p)) with
  | nil =>
    rw [hf] at hm
    simp only [List.mem_singleton] at hm
    subst hm
    exact ⟨rfl, rfl, rfl, rfl, rfl, rfl⟩
  | cons p ps =>
    rw [hf] at hm
    obtain ⟨q, hq, rfl⟩ := List.mem_map.mp hm
    exact ⟨rfl, rfl, rfl, rfl, rfl, rfl⟩

/-- Reading the pivot cell after the zero-fill always gives the sum of the
matching rules' percentages, an empty match giving 0. -/
lemma tsPolicyPct_getD (tra : List TradeRow) (y : Int) (ch cat : String) :
    (tsPolicyPct tra y ch cat).getD 0 =
      ((tra.filter fun t => decide (tradeMatch y ch cat t)).map fun t => t.pct).sum := by
  unfold tsPolicyPct
  cases hf : tra.filter (fun t => decide (tradeMatch y ch cat t)) with
  | nil => simp
  | cons t ts => simp

lemma headSplitDot_all (cs : List Char) (h : ∀ c ∈ cs, c ≠ '.') : headSplitDot cs = cs := by
  induction cs with
  | nil => rfl
  | cons a l ih =>
    have ha : a ≠ '.' := h a (List.mem_cons_self _ _)
    simp only [headSplitDot, List.takeWhile_cons, decide_eq_true ha]
    exact congrArg (a :: ·) (ih fun c hc => h c (List.mem_cons_of_mem _ hc))

lemma headSplitDot_append (pre rest : List Char) (h : ∀ c ∈ pre, c ≠ '.') :
    headSplitDot (pre ++ '.' :: rest) = pre := by
  induction pre with
  | nil => simp [headSplitDot, List.takeWhile_cons]
  | cons a l ih =>
    have ha : a ≠ '.' := h a (List.mem_cons_self _ _)
    simp only [List.cons_append, headSplitDot, List.takeWhile_cons, decide_eq_true ha]
    exact congrArg (a :: ·) (ih fun c hc => h c (List.mem_cons_of_mem _ hc))

lemma endsDotZero_eq_false (cs : List Char) (h : ∀ c ∈ cs, c ≠ '.') :
    endsDotZero cs = false := by
  unfold endsDotZero
  split
  · rename_i tl heq
    exfalso
    have hmem : '.' ∈ cs.reverse := by rw [heq]; simp
    exact h '.' (List.mem_reverse.mp hmem) rfl
  · rfl

/-! ### Claim theorems -/

/-- C1: for every row the waterfall produces, GrossSales − OffInvoice −
TradeSpendValue − COGS = GrossProfit holds exactly in rational arithmetic,
with GrossSales = Units × ListPrice, OffInvoice = GrossSales × GtgPct,
TradeSpendValue = GrossSales × (summed trade-spend percentage),
COGS = Units × StdCost and GrossProfit = (GrossSales − OffInvoice −
TradeSpendValue) − COGS. -/
theorem waterfall_conservation (m : Merged2) :
    (waterfall m).grossSales - (waterfall m).offInvoice - (waterfall m).tradeSpendValue -
        (waterfall m).cogs = (waterfall m).grossProfit ∧
      (waterfall m).grossSales = (waterfall m).units * (waterfall m).listPrice ∧
      (waterfall m).offInvoice = (waterfall m).grossSales * (waterfall m).gtgPct ∧
      (waterfall m).tradeSpendValue = (waterfall m).grossSales * (waterfall m).tsPct ∧
      (waterfall m).cogs = (waterfall m).units * (waterfall m).stdCost ∧
      (waterfall m).grossProfit =
        (waterfall m).grossSales - (waterfall m).offInvoice - (waterfall m).tradeSpendValue -
          (waterfall m).cogs := by
  dsimp only [waterfall]
  exact ⟨by ring, rfl, rfl, rfl, rfl, by ring⟩

/-- C4: running the pipeline on the specification's single-row scenario —
Volume (2024, Retail, Snacks, X, "100.0", 10 units), Price (2024, Retail,
"100", list 2.00, cost 1.00, GtgPct 0.05) and TradeSpend (2024, Retail,
Snacks, Agreement, 10%) — yields exactly one master row with
GrossSales = 20, OffInvoice = 1, NetTradeSales = 19, TradeSpendValue = 2,
NetTotalSales = 17, COGS = 10 and GrossProfit = 7. -/
theorem end_to_end_scenario :
    masterRows [vRow0] [pRow0] [tRow0] = [master0] ∧
      master0.grossSales = 20 ∧ master0.offInvoice = 1 ∧ master0.gts = 19 ∧
      master0.tradeSpendValue = 2 ∧ master0.netTotalSales = 17 ∧
      master0.cogs = 10 ∧ master0.grossProfit = 7 := by decide

/-- C3 counterexample: the key normalization the code performs is not
"trim, then drop a trailing literal .0 suffix and nothing else" — on the
input "1.5" the code truncates at the first dot and produces "1", while the
claimed normalization leaves "1.5" unchanged. -/
theorem normKey_counterexample :
    normKey "1.5" = "1" ∧ claimNormKey "1.5" = "1.5" ∧
      normKey "1.5" ≠ claimNormKey "1.5" := by decide

/-- C3 amended: the canonical key is the trimmed input truncated at its
first dot (everything from the first '.' onward removed). This agrees with
the claimed trailing-".0" removal exactly on inputs whose trimmed form
either has no dot at all or ends in ".0" with no other dot; "123.0" and
"123 " both normalize to "123", and the same `normKey` is applied to the
volume key and to the price key. -/
theorem normKey_amended (s : String)
    (h : (∀ c ∈ stripEnds s.data, c ≠ '.') ∨
      ∃ pre, stripEnds s.data = pre ++ ['.', '0'] ∧ ∀ c ∈ pre, c ≠ '.') :
    normKey s = claimNormKey s ∧ normKey "123.0" = "123" ∧ normKey "123 " = "123" ∧
      ∀ (r : VolumeRow) (p : PriceRow), r.eanRaw = p.eanRaw →
        (volKey r).ean = normKey p.eanRaw := by
  refine ⟨?_, by decide, by decide, fun r p hrp => by simp [volKey, hrp]⟩
  obtain h | ⟨pre, hpre, hnd⟩ := h
  · rw [normKey, claimNormKey, headSplitDot_all _ h, endsDotZero_eq_false _ h]
    simp
  · rw [normKey, claimNormKey, hpre, headSplitDot_append _ _ hnd]
    have h2 : endsDotZero (pre ++ ['.', '0']) = true := by
      unfold endsDotZero
      simp [List.reverse_append]
    rw [h2]
    simp [List.reverse_append]

theorem normKey_amended_witness :
    normKey "123.0" = claimNormKey "123.0" :=
  (normKey_amended "123.0" (Or.inr ⟨['1', '2', '3'], by decide, by decide⟩)).1

/-- C8 counterexample: the per-category volume share of the weights view is
an unguarded division; on a master table whose total Units is 0 it produces
the IEEE value NaN, not the 0 the claim promises (similarly for the NTS
share when total Net_Total_Sales is 0). -/
theorem weights_share_counterexample :
    volumeShare [mkPvmRow "A" 0 0] "A" = PandasVal.nan ∧
      ntsShare [mkPvmRow "A" 0 0] "A" = PandasVal.nan ∧
      PandasVal.nan ≠ PandasVal.finite 0 := by decide

/-- C8 amended: the GP margin is guarded — it is GrossProfit/NetTotalSales×100
for a non-zero denominator and 0 for a zero one, and never raises — but the
weights view's per-category volume-share and NTS-share are unguarded
divisions: when their denominator is zero they evaluate to a non-finite IEEE
value (NaN or a signed infinity), not to 0 (they still do not raise). -/
theorem division_guard_amended (rows : List MasterRow) (cat : String) :
    (ntsSum rows = 0 → gpMargin rows = 0) ∧
      (ntsSum rows ≠ 0 → gpMargin rows = gpSum rows / ntsSum rows * 100) ∧
      (unitsSum rows = 0 → (volumeShare rows cat).isFinite = false) ∧
      (ntsSum rows = 0 → (ntsShare rows cat).isFinite = false) := by
  refine ⟨fun h => by simp [gpMargin, h], fun h => by simp [gpMargin, h],
    fun h => ?_, fun h => ?_⟩
  · unfold volumeShare pandasDiv
    rw [h]
    simp only [ne_eq, not_true_eq_false, if_false]
    split
    · rfl
    · split <;> rfl
  · unfold ntsShare pandasDiv
    rw [h]
    simp only [ne_eq, not_true_eq_false, if_false]
    split
    · rfl
    · split <;> rfl

theorem division_guard_amended_witness :
    gpMargin [] = 0 ∧ (volumeShare [] "A").isFinite = false ∧
      (ntsShare [] "A").isFinite = false :=
  ⟨(division_guard_amended [] "A").1 (by decide),
    (division_guard_amended [] "A").2.2.1 (by decide),
    (division_guard_amended [] "A").2.2.2 (by decide)⟩

/-- The previous-period row-set of the PVM counterexample: category "A" has
one positive unit but the all-category total is 0 because category "B"
carries −1 units (a return). -/
def prevCex : List MasterRow := [mkPvmRow "A" 1 1, mkPvmRow "B" (-1) 0]

/-- The current-period row-set of the PVM counterexample. -/
def curCex : List MasterRow := [mkPvmRow "A" 1 1]

/-- C2 counterexample: with a negative-unit row in the previous period the
all-category total V1 is 0 while v1 > 0, the mix1 guard fires, and
PriceEffect + VolumeEffect + MixEffect = 1 while TotalDelta = 0 — the
decomposition is not additive for arbitrary row-sets. -/
theorem pvm_additivity_counterexample :
    (pvmFor prevCex curCex "A").priceEffect + (pvmFor prevCex curCex "A").volumeEffect +
        (pvmFor prevCex curCex "A").mixEffect ≠ (pvmFor prevCex curCex "A").totalDelta := by
  decide

/-- C2 amended: whenever every row of both row-sets carries non-negative
Units (so each category's unit sum is bounded by the all-category total and
the v>0 / V>0 guards are consistent), PriceEffect + VolumeEffect + MixEffect
= TotalDelta holds exactly for every category, with the guarded ratios of the
code (0 whenever the denominator is not positive). -/
theorem pvm_additive_of_nonneg_units (prev cur : List MasterRow) (cat : String)
    (h1 : ∀ r ∈ prev, 0 ≤ r.units) (h2 : ∀ r ∈ cur, 0 ≤ r.units) :
    (pvmFor prev cur cat).priceEffect + (pvmFor prev cur cat).volumeEffect +
        (pvmFor prev cur cat).mixEffect = (pvmFor prev cur cat).totalDelta := by
  dsimp only [pvmFor]
  exact pvm_algebra (catUnitsSum prev cat) (catUnitsSum cur cat) (unitsSum prev)
    (unitsSum cur) (catNtsSum prev cat) (catNtsSum cur cat)
    (catUnitsSum_nonneg prev cat h1) (catUnitsSum_nonneg cur cat h2)
    (catUnitsSum_le prev cat h1) (catUnitsSum_le cur cat h2)

/-- The PVM scenario of the specification: 8 previous units at NTS 12.80 and
10 current units at NTS 17.00 in a single-category universe. -/
def prevPvm : List MasterRow := [mkPvmRow "Snacks" 8 (64/5)]

/-- Current period of the specification's PVM scenario. -/
def curPvm : List MasterRow := [mkPvmRow "Snacks" 10 17]

theorem pvm_additive_of_nonneg_units_witness :
    (pvmFor prevPvm curPvm "Snacks").priceEffect + (pvmFor prevPvm curPvm "Snacks").volumeEffect +
        (pvmFor prevPvm curPvm "Snacks").mixEffect = (pvmFor prevPvm curPvm "Snacks").totalDelta :=
  pvm_additive_of_nonneg_units prevPvm curPvm "Snacks" (by decide) (by decide)

/-- C9: the aggregation groups volume rows by (Period, Channel, Category,
Customer, ProductKey) and sums Units: its output keys are exactly the
distinct input keys with no duplicate (so no row is dropped, a zero Units
sum included), each output row's Units is the sum of the matching input
rows' Units, and two rows with identical keys and Units 5 and 7 aggregate
to a single row with Units 12. -/
theorem aggregation_correct (vol : List VolumeRow) :
    ((aggregateVolume vol).map fun a => a.key).Nodup ∧
      (∀ k : AggKey, (∃ r ∈ vol, volKey r = k) ↔ ∃ a ∈ aggregateVolume vol, a.key = k) ∧
      (∀ a ∈ aggregateVolume vol,
        a.units = ((vol.filter fun r => decide (volKey r = a.key)).map fun r => r.units).sum) ∧
      aggregateVolume [⟨2024, "C", "B", "X", "K", 5⟩, ⟨2024, "C", "B", "X", "K", 7⟩] =
        [⟨⟨2024, "C", "B", "X", "K"⟩, 12⟩] := by
  refine ⟨?_, ?_, ?_, by decide⟩
  · have hmk : ((aggregateVolume vol).map fun a => a.key) = (vol.map volKey).dedup := by
      unfold aggregateVolume
      rw [List.map_map]
      show List.map (fun k => k) (vol.map volKey).dedup = (vol.map volKey).dedup
      simp
    rw [hmk]
    exact (vol.map volKey).nodup_dedup
  · intro k
    constructor
    · rintro ⟨r, hr, rfl⟩
      have hk : volKey r ∈ (vol.map volKey).dedup :=
        List.mem_dedup.mpr (List.mem_map.mpr ⟨r, hr, rfl⟩)
      exact ⟨_, List.mem_map.mpr ⟨volKey r, hk, rfl⟩, rfl⟩
    · rintro ⟨a, ha, rfl⟩
      obtain ⟨k2, hk2, rfl⟩ := List.mem_map.mp ha
      obtain ⟨r, hr, rfl⟩ := List.mem_map.mp (List.mem_dedup.mp hk2)
      exact ⟨r, hr, rfl⟩
  · intro a ha
    obtain ⟨k2, hk2, rfl⟩ := List.mem_map.mp ha
    rfl

theorem aggregation_correct_witness :
    aggregateVolume [⟨2024, "C", "B", "X", "K", 5⟩, ⟨2024, "C", "B", "X", "K", 7⟩] =
      [⟨⟨2024, "C", "B", "X", "K"⟩, 12⟩] :=
  (aggregation_correct []).2.2.2

/-- C10: the `fillna(0)` after each merge targets the whole merged frame,
so every nullable cell of every row of the table handed to the waterfall —
the carried-over Units included, not only the join-introduced price and
trade-spend columns — is non-null, and the waterfall consumes exactly that
filled table. -/
theorem master_table_no_nulls (vol : List VolumeRow) (pri : List PriceRow)
    (tra : List TradeRow) (m : Merged2) (hm : m ∈ masterMerged2 vol pri tra) :
    m.units.isSome = true ∧ m.listPrice.isSome = true ∧ m.stdCost.isSome = true ∧
      m.gtgPct.isSome = true ∧ m.tsPct.isSome = true ∧
      masterRows vol pri tra = (masterMerged2 vol pri tra).map waterfall := by
  rw [masterMerged2] at hm
  obtain ⟨m1, hm1, rfl⟩ := List.mem_map.mp hm
  exact ⟨rfl, rfl, rfl, rfl, rfl, rfl⟩

/-- The filled merged row the end-to-end scenario produces. -/
def merged0 : Merged2 :=
  ⟨2024, "Retail", "Snacks", "X", "100", some 10, some 2, some 1, some (1/20), some (1/10)⟩

theorem master_table_no_nulls_witness :
    merged0 ∈ masterMerged2 [vRow0] [pRow0] [tRow0] ∧ merged0.units.isSome = true ∧
      merged0.tsPct.isSome = true :=
  ⟨by decide, (master_table_no_nulls [vRow0] [pRow0] [tRow0] merged0 (by decide)).1,
    (master_table_no_nulls [vRow0] [pRow0] [tRow0] merged0 (by decide)).2.2.2.2.1⟩

/-- A first join whose filter finds no matching price row produces exactly
the null-filled row. -/
lemma joinPriceRow_of_no_match (a : AggRow) (pri : List PriceRow)
    (hfe : pri.filter (fun p => decide (priceMatch a.key p)) = []) :
    joinPriceRow a pri =
      [⟨a.key.year, a.key.channel, a.key.category, a.key.customer, a.key.ean,
        some a.units, none, none, none⟩] := by
  unfold joinPriceRow
  rw [hfe]

/-- C5: unmatched join keys are zero-filled, never null and never an error:
a master row whose key matches no price row comes out with ListPrice =
StdCost = GtgPct = 0, one whose key matches no trade-spend rule comes out
with summed trade percentage 0, and against an empty price table every row
has GrossSales = 0, COGS = 0 and GrossProfit = 0. -/
theorem zero_fill_policy (vol : List VolumeRow) (pri : List PriceRow)
    (tra : List TradeRow) (r : MasterRow) (hr : r ∈ masterRows vol pri tra) :
    ((∀ p ∈ pri, ¬ (p.year = r.year ∧ p.channel = r.channel ∧ normKey p.eanRaw = r.ean)) →
        r.listPrice = 0 ∧ r.stdCost = 0 ∧ r.gtgPct = 0) ∧
      ((∀ t ∈ tra, ¬ (t.year = r.year ∧ t.channel = r.channel ∧ t.category = r.category)) →
        r.tsPct = 0) ∧
      (pri = [] → r.grossSales = 0 ∧ r.cogs = 0 ∧ r.grossProfit = 0) := by
  obtain ⟨a, ha, m, hm, rfl⟩ := mem_masterRows_decomp vol pri tra r hr
  obtain ⟨hy, hch, hcat, hcu, hean, hu⟩ := joinPriceRow_dims a pri m hm
  refine ⟨fun hnp => ?_, fun hnt => ?_, fun hpe => ?_⟩
  · have hfe : pri.filter (fun p => decide (priceMatch a.key p)) = [] := by
      rw [List.filter_eq_nil_iff]
      intro p hp
      simp only [decide_eq_true_eq]
      intro hmatch
      exact hnp p hp ⟨hmatch.1.trans hy.symm, hmatch.2.1.trans hch.symm,
        hmatch.2.2.trans hean.symm⟩
    rw [joinPriceRow_of_no_match a pri hfe, List.mem_singleton] at hm
    subst hm
    exact ⟨rfl, rfl, rfl⟩
  · have hfe : tra.filter (fun t => decide (tradeMatch m.year m.channel m.category t)) = [] := by
      rw [List.filter_eq_nil_iff]
      intro t ht
      simp only [decide_eq_true_eq]
      intro hmatch
      exact hnt t ht hmatch
    have hnone : tsPolicyPct tra m.year m.channel m.category = none := by
      unfold tsPolicyPct
      rw [hfe]
    show (some ((tsPolicyPct tra m.year m.channel m.category).getD 0)).getD 0 = 0
    rw [hnone]
    rfl
  · subst hpe
    have hfe : ([] : List PriceRow).filter (fun p => decide (priceMatch a.key p)) = [] := rfl
    rw [joinPriceRow_of_no_match a [] hfe, List.mem_singleton] at hm
    subst hm
    refine ⟨?_, ?_, ?_⟩ <;> simp [waterfall, fillna2, addTrade, fillna1, fillCell]

/-- The master row produced from the scenario's volume row when the price
table is empty: all price-derived fields zero-filled. -/
def masterEmptyPri : MasterRow :=
  ⟨2024, "Retail", "Snacks", "X", "100", 10, 0, 0, 0, 1/10, 0, 0, 0, 0, 0, 0, 0⟩

theorem zero_fill_policy_witness :
    masterEmptyPri ∈ masterRows [vRow0] [] [tRow0] ∧
      masterEmptyPri.grossSales = 0 ∧ masterEmptyPri.cogs = 0 ∧
      masterEmptyPri.grossProfit = 0 :=
  ⟨by decide, (zero_fill_policy [vRow0] [] [tRow0] masterEmptyPri (by decide)).2.2 rfl⟩

/-- C7: for every master row of the pipeline output, the fine-grained
per-rule trade-spend contributions the ledger explosion derives —
GrossSales × rule.Percentage over the rules whose (Period, Channel,
Category) equal the row's, taken before the absolute value — sum to
exactly the row's coarse-grained TradeSpendValue of the waterfall. -/
theorem trade_spend_refinement (vol : List VolumeRow) (pri : List PriceRow)
    (tra : List TradeRow) (r : MasterRow) (hr : r ∈ masterRows vol pri tra) :
    ((tra.filter fun t => decide (ruleMatches r t)).map
        fun t => r.grossSales * t.pct).sum = r.tradeSpendValue := by
  obtain ⟨a, ha, m, hm, rfl⟩ := mem_masterRows_decomp vol pri tra r hr
  rw [sum_map_mul_left_q]
  show (waterfall (fillna2 (addTrade tra (fillna1 m)))).grossSales *
      ((tra.filter fun t => decide (tradeMatch m.year m.channel m.category t)).map
        fun t => t.pct).sum =
    (waterfall (fillna2 (addTrade tra (fillna1 m)))).grossSales *
      (tsPolicyPct tra m.year m.channel m.category).getD 0
  rw [tsPolicyPct_getD]

theorem trade_spend_refinement_witness :
    master0 ∈ masterRows [vRow0] [pRow0] [tRow0] ∧
      (([tRow0].filter fun t => decide (ruleMatches master0 t)).map
        fun t => master0.grossSales * t.pct).sum = master0.tradeSpendValue :=
  ⟨by decide, trade_spend_refinement [vRow0] [pRow0] [tRow0] master0 (by decide)⟩

lemma foldl_append_if {α β : Type} (l : List α) (init : List β) (p : α → Prop)
    [DecidablePred p] (f : α → β) :
    l.foldl (fun acc t => if p t then acc ++ [f t] else acc) init =
      init ++ l.filterMap (fun t => if p t then some (f t) else none) := by
  induction l generalizing init with
  | nil => simp
  | cons a l ih =>
    by_cases hpa : p a
    · simp only [List.foldl_cons, if_pos hpa, ih, List.filterMap_cons, List.append_assoc,
        List.singleton_append]
    · simp only [List.foldl_cons, if_neg hpa, ih, List.filterMap_cons]

/-- The ledger explosion written as one fixed-sequence concatenation. -/
lemma ledgerLinesRow_eq (row : MasterRow) (rules : List TradeRow) :
    ledgerLinesRow row rules =
      gsLine row :: ((if row.offInvoice ≠ 0 then [oiLine row] else []) ++
        ((rules.filter fun t => decide (ruleMatches row t)).filterMap
          fun t => if row.grossSales * t.pct ≠ 0 then some (tradeLine row t) else none) ++
        (if row.cogs ≠ 0 then [cogsLine row] else [])) := by
  simp only [ledgerLinesRow]
  rw [foldl_append_if]
  by_cases hoi : row.offInvoice ≠ 0 <;> by_cases hc : row.cogs ≠ 0 <;>
    simp [hoi, hc, List.append_assoc]

lemma mem_ite_singleton {α : Type} {c : Prop} [Decidable c] {x y : α}
    (h : y ∈ if c then [x] else []) : y = x ∧ c := by
  split at h
  · rename_i hc
    exact ⟨List.mem_singleton.mp h, hc⟩
  · exact absurd h (List.not_mem_nil _)

/-- C6: per master row the ledger explosion emits the Gross Sales line
unconditionally and first (even when its value is zero), an Off-Invoice
line exactly when OffInvoice is non-zero, one line per matching
TradeSpendRule — value |GrossSales × rule.Percentage| — exactly when that
product is non-zero, and a COGS line exactly when COGS is non-zero, in the
fixed sequence Gross Sales, Off-Invoice, trade rules, COGS, every emitted
value being the absolute value of its signed contribution and hence
non-negative. -/
theorem ledger_explosion (row : MasterRow) (rules : List TradeRow) :
    (ledgerLinesRow row rules).head? = some (gsLine row) ∧
      (gsLine row).value = |row.grossSales| ∧
      (oiLine row ∈ ledgerLinesRow row rules ↔ row.offInvoice ≠ 0) ∧
      (cogsLine row ∈ ledgerLinesRow row rules ↔ row.cogs ≠ 0) ∧
      (∀ t ∈ rules, ruleMatches row t → row.grossSales * t.pct ≠ 0 →
        tradeLine row t ∈ ledgerLinesRow row rules) ∧
      (∀ l ∈ ledgerLinesRow row rules, 0 ≤ l.value) ∧
      ledgerLinesRow row rules =
        gsLine row :: ((if row.offInvoice ≠ 0 then [oiLine row] else []) ++
          ((rules.filter fun t => decide (ruleMatches row t)).filterMap
            fun t => if row.grossSales * t.pct ≠ 0 then some (tradeLine row t) else none) ++
          (if row.cogs ≠ 0 then [cogsLine row] else [])) := by
  have E := ledgerLinesRow_eq row rules
  refine ⟨by rw [E]; rfl, rfl, ?_, ?_, ?_, ?_, E⟩
  · rw [E]
    by_cases hoi : row.offInvoice ≠ 0
    · simp only [if_pos hoi]
      refine ⟨fun _ => hoi, fun _ => List.mem_cons_of_mem _ ?_⟩
      exact List.mem_append_left _ (List.mem_append_left _ (List.mem_singleton_self _))
    · have hz : row.offInvoice = 0 := not_not.mp hoi
      simp only [if_neg hoi, List.nil_append]
      constructor
      · intro hmem
        exfalso
        rcases List.mem_cons.mp hmem with h1 | h2
        · exact (by decide : ("OI-001" : String) ≠ "GS-001") (congrArg LedgerLine.accountCode h1)
        · rcases List.mem_append.mp h2 with h3 | h4
          · obtain ⟨t, ht, heq⟩ := List.mem_filterMap.mp h3
            by_cases hnz : row.grossSales * t.pct ≠ 0
            · rw [if_pos hnz] at heq
              have hlv := congrArg LedgerLine.value (Option.some.inj heq)
              simp only [tradeLine, oiLine, cogsLine] at hlv
              rw [hz, abs_zero] at hlv
              exact hnz (abs_eq_zero.mp hlv)
            · rw [if_neg hnz] at heq
              exact Option.noConfusion heq
          · have h5 := mem_ite_singleton h4
            exact (by decide : ("OI-001" : String) ≠ "CS-001") (congrArg LedgerLine.accountCode h5.1)
      · intro h
        exact absurd h hoi
  · rw [E]
    by_cases hc : row.cogs ≠ 0
    · simp only [if_pos hc]
      refine ⟨fun _ => hc, fun _ => List.mem_cons_of_mem _ ?_⟩
      exact List.mem_append_right _ (List.mem_singleton_self _)
    · have hz : row.cogs = 0 := not_not.mp hc
      simp only [if_neg hc, List.append_nil]
      constructor
      · intro hmem
        exfalso
        rcases List.mem_cons.mp hmem with h1 | h2
        · exact (by decide : ("CS-001" : String) ≠ "GS-001") (congrArg LedgerLine.accountCode h1)
        · rcases List.mem_append.mp h2 with h3 | h4
          · have h5 := mem_ite_singleton h3
            exact (by decide : ("CS-001" : String) ≠ "OI-001") (congrArg LedgerLine.accountCode h5.1)
          · obtain ⟨t, ht, heq⟩ := List.mem_filterMap.mp h4
            by_cases hnz : row.grossSales * t.pct ≠ 0
            · rw [if_pos hnz] at heq
              have hlv := congrArg LedgerLine.value (Option.some.inj heq)
              simp only [tradeLine, oiLine, cogsLine] at hlv
              rw [hz, abs_zero] at hlv
              exact hnz (abs_eq_zero.mp hlv)
            · rw [if_neg hnz] at heq
              exact Option.noConfusion heq
      · intro h
        exact absurd h hc
  · intro t ht hmatch hnz
    rw [E]
    refine List.mem_cons_of_mem _ (List.mem_append_left _ (List.mem_append_right _ ?_))
    exact List.mem_filterMap.mpr ⟨t, List.mem_filter.mpr ⟨ht, decide_eq_true hmatch⟩, if_pos hnz⟩
  · intro l hl
    rw [E] at hl
    rcases List.mem_cons.mp hl with rfl | h2
    · exact abs_nonneg _
    · rcases List.mem_append.mp h2 with h3 | h4
      · rcases List.mem_append.mp h3 with h5 | h6
        · rw [(mem_ite_singleton h5).1]
          exact abs_nonneg _
        · obtain ⟨t, ht, heq⟩ := List.mem_filterMap.mp h6
          by_cases hnz : row.grossSales * t.pct ≠ 0
          · rw [if_pos hnz] at heq
            rw [← Option.some.inj heq]
            exact abs_nonneg _
          · rw [if_neg hnz] at heq
            exact Option.noConfusion heq
      · rw [(mem_ite_singleton h4).1]
        exact abs_nonneg _

theorem ledger_explosion_witness :
    (ledgerLinesRow master0 [tRow0]).head? = some (gsLine master0) ∧
      (oiLine master0 ∈ ledgerLinesRow master0 [tRow0] ↔ master0.offInvoice ≠ 0) :=
  ⟨(ledger_explosion master0 [tRow0]).1, (ledger_explosion master0 [tRow0]).2.2.1⟩

theorem waterfall_conservation_witness :
    (waterfall merged0).grossSales - (waterfall merged0).offInvoice -
        (waterfall merged0).tradeSpendValue - (waterfall merged0).cogs =
      (waterfall merged0).grossProfit :=
  (waterfall_conservation merged0).1
